import Mathlib

/-
Verification of the per-category inter-annotator agreement computation.

The program under study is the function `agreement_rate_by_category` (with
its helper `choose2`) from the notebook source:

  def agreement_rate_by_category(data):
      agreement = defaultdict(int)
      potential = defaultdict(int)
      for row in data:
          for cat in set(row):
              count = row.count(cat)
              agreement[cat] += choose2(count)
              potential[cat] += count * len(row) - choose2(count + 1)
      return {cat: agreement[cat] / potential[cat] for cat in agreement}

  def choose2(n):
      return n*(n-1)/2

The embedding below models the two defaultdicts as total functions with
default value 0 together with the finite set of keys that the loop has
touched, models Python numbers as exact rationals, iterates over the
distinct elements of a row (the meaning of `set(row)`), and models the
ZeroDivisionError that the final dict comprehension raises when some
accumulated potential is zero as the `none` result.
-/

/-- Accumulator state of the main loop: the two `defaultdict(int)` maps
(`agreement`, `potential`) as total functions defaulting to 0, together
with the set of keys that have been inserted (the keys of `agreement`,
which the final comprehension iterates over; the loop body always touches
both maps at the same key, so one key set suffices). -/
structure Accum (α : Type) where
  agreement : α → ℚ
  potential : α → ℚ
  keys : Finset α

/-- The accumulator at entry of the loop: both maps empty. -/
def initAccum (α : Type) : Accum α :=
  { agreement := fun _ => 0, potential := fun _ => 0, keys := ∅ }

/-- Embedding of `choose2`: `n*(n-1)/2` with Python true division, exact
over the rationals.  The source only applies it to nonnegative counts. -/
def choose2 (n : ℕ) : ℚ :=
  (n : ℚ) * ((n : ℚ) - 1) / 2

/-- One iteration of the inner loop body, at label `cat` of `row`:
`count = row.count(cat)`, `agreement[cat] += choose2(count)`,
`potential[cat] += count * len(row) - choose2(count + 1)`. -/
def stepCat [DecidableEq α] (row : List α) (a : Accum α) (cat : α) : Accum α :=
  { agreement := Function.update a.agreement cat
      (a.agreement cat + choose2 (row.count cat))
    potential := Function.update a.potential cat
      (a.potential cat +
        ((row.count cat : ℚ) * (row.length : ℚ) - choose2 (row.count cat + 1)))
    keys := insert cat a.keys }

/-- Processing one row: the inner loop `for cat in set(row)` runs the body
once for each distinct label of the row (`List.dedup` gives each distinct
element exactly once; the iteration order of a Python set is arbitrary and
is proved immaterial below). -/
def processRow [DecidableEq α] (a : Accum α) (row : List α) : Accum α :=
  row.dedup.foldl (stepCat row) a

/-- Embedding of `agreement_rate_by_category`.  The outer loop folds
`processRow` over the rows; the final dict comprehension maps every key of
`agreement` to `agreement[cat] / potential[cat]`.  Python raises
`ZeroDivisionError` when it meets a key whose accumulated potential is
zero; this fallible step is modelled by returning `none` exactly when some
key has zero potential, and otherwise `some` of the key set paired with
the rate function. -/
def agreement_rate_by_category [DecidableEq α] (data : List (List α)) :
    Option (Finset α × (α → ℚ)) :=
  if ∀ cat ∈ (data.foldl processRow (initAccum α)).keys,
      (data.foldl processRow (initAccum α)).potential cat ≠ 0 then
    some ((data.foldl processRow (initAccum α)).keys,
      fun cat => (data.foldl processRow (initAccum α)).agreement cat /
        (data.foldl processRow (initAccum α)).potential cat)
  else none

/-- The total agreement count a dataset accumulates for a category: the
sum over rows of `choose2(count)`.  (For a row not containing the
category, `count = 0` and the summand is `0`, exactly as the source's
inner loop skips such labels.) -/
def agreementTotal [DecidableEq α] (data : List (List α)) (cat : α) : ℚ :=
  (data.map (fun row => choose2 (row.count cat))).sum

/-- The total potential count a dataset accumulates for a category: the
sum over rows of `count * len(row) - choose2(count + 1)`.  (For a row not
containing the category the summand is `0 - choose2 1 = 0`.) -/
def potentialTotal [DecidableEq α] (data : List (List α)) (cat : α) : ℚ :=
  (data.map
    (fun row => (row.count cat : ℚ) * (row.length : ℚ) - choose2 (row.count cat + 1))).sum

/-- The set of labels observed anywhere in the dataset, accumulated the
way the loop accumulates keys. -/
def observed [DecidableEq α] (data : List (List α)) : Finset α :=
  data.foldl (fun s row => s ∪ row.toFinset) ∅

section FoldLemmas

variable {α : Type} [DecidableEq α]

lemma choose2_zero : choose2 0 = 0 := by
  simp [choose2]

lemma choose2_one : choose2 1 = 0 := by
  simp [choose2]

lemma foldl_stepCat_agreement (row l : List α) (a : Accum α) (cat : α) :
    (l.foldl (stepCat row) a).agreement cat =
      a.agreement cat + (l.count cat : ℚ) * choose2 (row.count cat) := by
  induction l generalizing a with
  | nil => simp
  | cons c t ih =>
      rw [List.foldl_cons, ih]
      by_cases h : cat = c
      · subst h
        simp [stepCat, List.count_cons]
        ring
      · simp [stepCat, Function.update_noteq h, List.count_cons, Ne.symm h, h]

lemma foldl_stepCat_potential (row l : List α) (a : Accum α) (cat : α) :
    (l.foldl (stepCat row) a).potential cat =
      a.potential cat + (l.count cat : ℚ) *
        ((row.count cat : ℚ) * (row.length : ℚ) - choose2 (row.count cat + 1)) := by
  induction l generalizing a with
  | nil => simp
  | cons c t ih =>
      rw [List.foldl_cons, ih]
      by_cases h : cat = c
      · subst h
        simp [stepCat, List.count_cons]
        ring
      · simp [stepCat, Function.update_noteq h, List.count_cons, Ne.symm h, h]

lemma foldl_stepCat_keys (row l : List α) (a : Accum α) :
    (l.foldl (stepCat row) a).keys = a.keys ∪ l.toFinset := by
  induction l generalizing a with
  | nil => simp
  | cons c t ih =>
      rw [List.foldl_cons, ih]
      ext x
      simp [stepCat]

lemma processRow_agreement (a : Accum α) (row : List α) (cat : α) :
    (processRow a row).agreement cat =
      a.agreement cat + choose2 (row.count cat) := by
  rw [processRow, foldl_stepCat_agreement]
  by_cases h : cat ∈ row
  · rw [List.count_dedup]
    simp [h]
  · have hc : row.count cat = 0 := List.count_eq_zero.mpr h
    rw [List.count_dedup]
    simp [h, hc, choose2_zero]

lemma processRow_potential (a : Accum α) (row : List α) (cat : α) :
    (processRow a row).potential cat =
      a.potential cat +
        ((row.count cat : ℚ) * (row.length : ℚ) - choose2 (row.count cat + 1)) := by
  rw [processRow, foldl_stepCat_potential]
  by_cases h : cat ∈ row
  · rw [List.count_dedup]
    simp [h]
  · have hc : row.count cat = 0 := List.count_eq_zero.mpr h
    rw [List.count_dedup]
    simp [h, hc, choose2_one]

lemma processRow_keys (a : Accum α) (row : List α) :
    (processRow a row).keys = a.keys ∪ row.toFinset := by
  rw [processRow, foldl_stepCat_keys]
  ext x
  simp

lemma foldl_processRow_agreement (data : List (List α)) (a : Accum α) (cat : α) :
    (data.foldl processRow a).agreement cat =
      a.agreement cat + agreementTotal data cat := by
  induction data generalizing a with
  | nil => simp [agreementTotal]
  | cons r t ih =>
      rw [List.foldl_cons, ih, processRow_agreement]
      simp [agreementTotal]
      ring

lemma foldl_processRow_potential (data : List (List α)) (a : Accum α) (cat : α) :
    (data.foldl processRow a).potential cat =
      a.potential cat + potentialTotal data cat := by
  induction data generalizing a with
  | nil => simp [potentialTotal]
  | cons r t ih =>
      rw [List.foldl_cons, ih, processRow_potential]
      simp [potentialTotal]
      ring

lemma mem_observed (data : List (List α)) (cat : α) :
    cat ∈ observed data ↔ ∃ row ∈ data, cat ∈ row := by
  have h : ∀ (s : Finset α),
    cat ∈ data.foldl (fun s row => s ∪ row.toFinset) s ↔
      cat ∈ s ∨ ∃ row ∈ data, cat ∈ row := by
    induction data with
    | nil => simp
    | cons r t ih =>
        intro s
        rw [List.foldl_cons, ih]
        simp
        tauto
  rw [observed, h]
  simp

lemma foldl_processRow_keys_mem (data : List (List α)) (a : Accum α) (cat : α) :
    cat ∈ (data.foldl processRow a).keys ↔
      cat ∈ a.keys ∨ ∃ row ∈ data, cat ∈ row := by
  induction data generalizing a with
  | nil => simp
  | cons r t ih =>
      rw [List.foldl_cons, ih, processRow_keys]
      simp
      tauto

lemma accum_agreement (data : List (List α)) (cat : α) :
    (data.foldl processRow (initAccum α)).agreement cat = agreementTotal data cat := by
  rw [foldl_processRow_agreement]
  simp [initAccum]

lemma accum_potential (data : List (List α)) (cat : α) :
    (data.foldl processRow (initAccum α)).potential cat = potentialTotal data cat := by
  rw [foldl_processRow_potential]
  simp [initAccum]

lemma accum_keys (data : List (List α)) :
    (data.foldl processRow (initAccum α)).keys = observed data := by
  ext x
  rw [foldl_processRow_keys_mem, mem_observed]
  simp [initAccum]

/-- Closed form of the embedded function: the key set is the observed
label set, the rate function divides the accumulated totals, and the
result is `none` exactly when some observed label has zero potential. -/
lemma result_eq (data : List (List α)) :
    agreement_rate_by_category data =
      if ∀ cat ∈ observed data, potentialTotal data cat ≠ 0 then
        some (observed data,
          fun cat => agreementTotal data cat / potentialTotal data cat)
      else none := by
  rw [agreement_rate_by_category]
  have hk := accum_keys data
  have ha := accum_agreement data
  have hp := accum_potential data
  simp only [hk, hp, ha]

end FoldLemmas

section Arith

variable {α : Type} [DecidableEq α]

lemma choose2_eq_natChoose (n : ℕ) : choose2 n = (n.choose 2 : ℚ) := by
  induction n with
  | zero => simp [choose2]
  | succ m ih =>
      have h : (m + 1).choose 2 = m.choose 2 + m := by
        rw [Nat.choose_succ_succ]
        simp [Nat.choose_one_right, Nat.add_comm]
      rw [h]
      rw [choose2] at ih ⊢
      push_cast
      nlinarith [ih]

lemma choose2_nonneg (n : ℕ) : 0 ≤ choose2 n := by
  rw [choose2_eq_natChoose]
  positivity

/-- The per-row potential increment, rewritten as in the design rationale:
`count * rowLength - C(count+1,2) = count*(rowLength-count) + C(count,2)`. -/
lemma rowPotential_split (n L : ℕ) :
    (n : ℚ) * (L : ℚ) - choose2 (n + 1) =
      (n : ℚ) * ((L : ℚ) - (n : ℚ)) + choose2 n := by
  rw [choose2, choose2]
  push_cast
  ring

/-- The per-row potential increment is the cast of a natural number when
the count does not exceed the row length (always true for real counts). -/
lemma rowPotential_natval {n L : ℕ} (h : n ≤ L) :
    (n : ℚ) * (L : ℚ) - choose2 (n + 1) =
      ((n * (L - n) + n.choose 2 : ℕ) : ℚ) := by
  rw [rowPotential_split, choose2_eq_natChoose]
  push_cast [Nat.cast_sub h]
  ring

/-- Natural-number form of the accumulated agreement total. -/
def natAgreementTotal (data : List (List α)) (cat : α) : ℕ :=
  (data.map (fun row => (row.count cat).choose 2)).sum

/-- Natural-number form of the accumulated potential total. -/
def natPotentialTotal (data : List (List α)) (cat : α) : ℕ :=
  (data.map (fun row =>
    row.count cat * (row.length - row.count cat) + (row.count cat).choose 2)).sum

lemma agreementTotal_eq_nat (data : List (List α)) (cat : α) :
    agreementTotal data cat = (natAgreementTotal data cat : ℚ) := by
  induction data with
  | nil => simp [agreementTotal, natAgreementTotal]
  | cons r t ih =>
      simp only [agreementTotal, natAgreementTotal, List.map_cons, List.sum_cons] at ih ⊢
      rw [ih, choose2_eq_natChoose]
      push_cast
      ring

lemma potentialTotal_eq_nat (data : List (List α)) (cat : α) :
    potentialTotal data cat = (natPotentialTotal data cat : ℚ) := by
  induction data with
  | nil => simp [potentialTotal, natPotentialTotal]
  | cons r t ih =>
      simp only [potentialTotal, natPotentialTotal, List.map_cons, List.sum_cons] at ih ⊢
      rw [ih, rowPotential_natval (List.count_le_length cat r)]
      push_cast
      ring

lemma agreementTotal_nonneg (data : List (List α)) (cat : α) :
    0 ≤ agreementTotal data cat := by
  rw [agreementTotal_eq_nat]
  positivity

lemma potentialTotal_nonneg (data : List (List α)) (cat : α) :
    0 ≤ potentialTotal data cat := by
  rw [potentialTotal_eq_nat]
  positivity

lemma agreementTotal_le_potentialTotal (data : List (List α)) (cat : α) :
    agreementTotal data cat ≤ potentialTotal data cat := by
  rw [agreementTotal_eq_nat, potentialTotal_eq_nat]
  have h : natAgreementTotal data cat ≤ natPotentialTotal data cat := by
    rw [natAgreementTotal, natPotentialTotal]
    apply List.sum_le_sum
    intro row _
    exact Nat.le_add_left _ _
  exact_mod_cast h

/-- A single occurrence of a category in a row of length at least 2 makes
that row's potential increment positive. -/
lemma rowPotential_pos {row : List α} {cat : α} (hmem : cat ∈ row)
    (hlen : 2 ≤ row.length) :
    0 < (row.count cat : ℚ) * (row.length : ℚ) - choose2 (row.count cat + 1) := by
  rw [rowPotential_natval (List.count_le_length cat row)]
  have hc : 1 ≤ row.count cat := List.count_pos_iff.mpr hmem
  have hcl : row.count cat ≤ row.length := List.count_le_length cat row
  have key : 0 < row.count cat * (row.length - row.count cat) +
      (row.count cat).choose 2 := by
    rcases Nat.lt_or_ge (row.count cat) row.length with hlt | hge
    · have h1 : 1 ≤ row.length - row.count cat := by omega
      have : 1 ≤ row.count cat * (row.length - row.count cat) :=
        Nat.one_le_iff_ne_zero.mpr (by positivity)
      omega
    · have heq : row.count cat = row.length := Nat.le_antisymm hcl hge
      have h2 : 2 ≤ row.count cat := heq ▸ hlen
      have : 1 ≤ (row.count cat).choose 2 :=
        Nat.one_le_iff_ne_zero.mpr (Nat.ne_of_gt (Nat.choose_pos h2))
      omega
  exact_mod_cast key

/-- The per-row potential increment is never negative. -/
lemma rowPotential_nonneg (row : List α) (cat : α) :
    0 ≤ (row.count cat : ℚ) * (row.length : ℚ) - choose2 (row.count cat + 1) := by
  rw [rowPotential_natval (List.count_le_length cat row)]
  positivity

lemma potentialTotal_pos {data : List (List α)} {cat : α}
    (h : ∃ row ∈ data, cat ∈ row ∧ 2 ≤ row.length) :
    0 < potentialTotal data cat := by
  induction data with
  | nil => simp at h
  | cons r t ih =>
      simp only [potentialTotal, List.map_cons, List.sum_cons]
      rcases h with ⟨row, hrow, hmem, hlen⟩
      rcases List.mem_cons.mp hrow with hr | ht
      · subst hr
        have h1 := rowPotential_pos hmem hlen
        have h2 : 0 ≤ potentialTotal t cat := potentialTotal_nonneg t cat
        rw [potentialTotal] at h2
        linarith
      · have h1 := ih ⟨row, ht, hmem, hlen⟩
        rw [potentialTotal] at h1
        have h2 := rowPotential_nonneg r cat
        linarith

/-- A row of length 1 containing a category contributes zero potential. -/
lemma rowPotential_len_one {row : List α} {cat : α} (hlen : row.length = 1) :
    (row.count cat : ℚ) * (row.length : ℚ) - choose2 (row.count cat + 1) = 0 := by
  have hcl : row.count cat ≤ 1 := hlen ▸ List.count_le_length cat row
  rw [hlen]
  rcases Nat.le_one_iff_eq_zero_or_eq_one.mp hcl with h0 | h1
  · rw [h0, choose2]
    norm_num
  · rw [h1, choose2]
    norm_num

lemma potentialTotal_all_len_one {data : List (List α)} (cat : α)
    (h1 : ∀ row ∈ data, row.length = 1) : potentialTotal data cat = 0 := by
  induction data with
  | nil => simp [potentialTotal]
  | cons r t ih =>
      simp only [potentialTotal, List.map_cons, List.sum_cons]
      rw [rowPotential_len_one (h1 r (List.mem_cons_self r t))]
      have := ih (fun row hrow => h1 row (List.mem_cons_of_mem r hrow))
      rw [potentialTotal] at this
      rw [this]
      ring

end Arith

section ConcreteEval

lemma count_pair : ([0, 0] : List ℕ).count 0 = 2 := by decide

lemma obs_pair : observed ([[0, 0]] : List (List ℕ)) = {0} := by
  ext x
  rw [mem_observed]
  simp

lemma agree_pair : agreementTotal ([[0, 0]] : List (List ℕ)) 0 = 1 := by
  simp only [agreementTotal, List.map_cons, List.map_nil, List.sum_cons,
    List.sum_nil, count_pair]
  rw [choose2]
  norm_num

lemma pot_pair : potentialTotal ([[0, 0]] : List (List ℕ)) 0 = 1 := by
  simp only [potentialTotal, List.map_cons, List.map_nil, List.sum_cons,
    List.sum_nil, count_pair, List.length_cons, List.length_nil]
  rw [choose2]
  norm_num

lemma eval_pair : agreement_rate_by_category ([[0, 0]] : List (List ℕ)) =
    some (observed [[0, 0]],
      fun cat => agreementTotal [[0, 0]] cat / potentialTotal [[0, 0]] cat) := by
  rw [result_eq]
  have hc : ∀ cat ∈ observed ([[0, 0]] : List (List ℕ)),
      potentialTotal [[0, 0]] cat ≠ 0 := by
    intro cat hcat
    rw [obs_pair] at hcat
    rw [Finset.mem_singleton] at hcat
    subst hcat
    rw [pot_pair]
    norm_num
  rw [if_pos hc]

end ConcreteEval

section Claims

variable {α : Type} [DecidableEq α]

/-- C1: the spec requires that a dataset consisting only of rows of
length 1 produce an empty result mapping or an all-undefined sentinel
mapping, never an unhandled runtime fault.  The code instead reaches the
division `agreement[cat] / potential[cat]` with `potential[cat] = 0` for
every key and raises ZeroDivisionError (modelled as `none`): on any
nonempty dataset whose rows all have length 1, the embedded function
returns `none`, not a `some` mapping. -/
theorem single_label_rows_crash (data : List (List α))
    (hne : data ≠ []) (h1 : ∀ row ∈ data, row.length = 1) :
    agreement_rate_by_category data = none := by
  rw [result_eq, if_neg]
  intro hall
  obtain ⟨r, hr⟩ : ∃ r, r ∈ data := by
    cases data with
    | nil => exact absurd rfl hne
    | cons r t => exact ⟨r, List.mem_cons_self r t⟩
  have hlen := h1 r hr
  obtain ⟨c, hc⟩ : ∃ c, c ∈ r := by
    cases r with
    | nil => simp at hlen
    | cons c s => exact ⟨c, List.mem_cons_self c s⟩
  have hobs : c ∈ observed data := (mem_observed data c).mpr ⟨r, hr, hc⟩
  exact hall c hobs (potentialTotal_all_len_one c h1)

/-- Witness for C1 at the concrete one-row dataset `[[0]]`. -/
theorem single_label_rows_crash_witness :
    agreement_rate_by_category ([[0]] : List (List ℕ)) = none :=
  single_label_rows_crash [[0]] (by decide) (by decide)

/-- C2 counterexample: in the dataset `[[0]]` the category `0` appears in
a row, yet its accumulated potential denominator is `0`, so the claimed
nonzero-denominator property fails as stated. -/
theorem potential_can_vanish_cex :
    (∃ row ∈ ([[0]] : List (List ℕ)), (0 : ℕ) ∈ row) ∧
      potentialTotal ([[0]] : List (List ℕ)) 0 = 0 := by
  constructor
  · exact ⟨[0], List.mem_cons_self _ _, List.mem_cons_self _ _⟩
  · exact potentialTotal_all_len_one 0 (by decide)

/-- C2 amended: for every dataset and every category that appears in at
least one row of length at least 2, the accumulated potential denominator
is nonzero, so the final division is defined at that key. -/
theorem potential_nonzero_of_wide_row (data : List (List α)) (cat : α)
    (h : ∃ row ∈ data, cat ∈ row ∧ 2 ≤ row.length) :
    potentialTotal data cat ≠ 0 :=
  ne_of_gt (potentialTotal_pos h)

/-- Witness for the amended C2 at the dataset `[[0, 0]]`, category `0`. -/
theorem potential_nonzero_of_wide_row_witness :
    potentialTotal ([[0, 0]] : List (List ℕ)) 0 ≠ 0 :=
  potential_nonzero_of_wide_row [[0, 0]] 0
    ⟨[0, 0], List.mem_cons_self _ _, List.mem_cons_self _ _, by decide⟩

/-- C3: whenever every observed category has positive accumulated
potential, the function returns the mapping whose keys are the observed
categories and whose rate at each category is the accumulated agreement
total (sum over rows of `C(count,2)`) divided by the accumulated potential
total (sum over rows of `count*rowLength - C(count+1,2)`). -/
theorem agreement_rate_formula (data : List (List α))
    (h : ∀ cat ∈ observed data, 0 < potentialTotal data cat) :
    agreement_rate_by_category data =
      some (observed data,
        fun cat => agreementTotal data cat / potentialTotal data cat) := by
  rw [result_eq]
  have hc : ∀ cat ∈ observed data, potentialTotal data cat ≠ 0 :=
    fun cat hcat => ne_of_gt (h cat hcat)
  rw [if_pos hc]

/-- Witness for C3 at the concrete dataset `[[0, 0]]`. -/
theorem agreement_rate_formula_witness :
    agreement_rate_by_category ([[0, 0]] : List (List ℕ)) =
      some (observed [[0, 0]],
        fun cat => agreementTotal [[0, 0]] cat / potentialTotal [[0, 0]] cat) :=
  agreement_rate_formula [[0, 0]] (by
    intro cat hcat
    rw [obs_pair, Finset.mem_singleton] at hcat
    subst hcat
    rw [pot_pair]
    norm_num)

/-- C9: on the empty dataset the function returns the empty result
mapping (no keys; the rate function is constantly 0 on the empty key set)
and does not fail. -/
theorem empty_dataset_empty_result (α : Type) [DecidableEq α] :
    agreement_rate_by_category ([] : List (List α)) = some (∅, fun _ => 0) := by
  rw [result_eq]
  have hobs : observed ([] : List (List α)) = ∅ := rfl
  have hc : ∀ cat ∈ observed ([] : List (List α)),
      potentialTotal [] cat ≠ 0 := by
    rw [hobs]
    intro cat hcat
    exact absurd hcat (Finset.not_mem_empty cat)
  rw [if_pos hc, hobs]
  congr 1
  refine Prod.ext rfl ?_
  funext cat
  simp [agreementTotal, potentialTotal]

/-- C4: whenever the function returns a result mapping, every rate at a
key of the mapping lies between 0 and 1 inclusive. -/
theorem rates_in_unit_interval (data : List (List α)) (keys : Finset α)
    (f : α → ℚ) (h : agreement_rate_by_category data = some (keys, f)) :
    ∀ cat ∈ keys, 0 ≤ f cat ∧ f cat ≤ 1 := by
  rw [result_eq] at h
  by_cases hc : ∀ cat ∈ observed data, potentialTotal data cat ≠ 0
  · rw [if_pos hc] at h
    injection h with h1
    have hk : keys = observed data := (congrArg Prod.fst h1).symm
    have hf : f = fun cat => agreementTotal data cat / potentialTotal data cat :=
      (congrArg Prod.snd h1).symm
    subst hk
    subst hf
    intro cat hcat
    have hpos : 0 < potentialTotal data cat :=
      lt_of_le_of_ne (potentialTotal_nonneg data cat) (Ne.symm (hc cat hcat))
    constructor
    · exact div_nonneg (agreementTotal_nonneg data cat) (le_of_lt hpos)
    · rw [div_le_one hpos]
      exact agreementTotal_le_potentialTotal data cat
  · rw [if_neg hc] at h
    exact absurd h (by simp)

/-- Witness for C4 at the concrete dataset `[[0, 0]]`, category `0`. -/
theorem rates_in_unit_interval_witness :
    0 ≤ agreementTotal ([[0, 0]] : List (List ℕ)) 0 / potentialTotal [[0, 0]] 0 ∧
      agreementTotal ([[0, 0]] : List (List ℕ)) 0 / potentialTotal [[0, 0]] 0 ≤ 1 :=
  rates_in_unit_interval [[0, 0]] (observed [[0, 0]])
    (fun cat => agreementTotal [[0, 0]] cat / potentialTotal [[0, 0]] cat)
    eval_pair 0 (by rw [obs_pair]; exact Finset.mem_singleton_self 0)

/-- C6: for every dataset and category the accumulated agreement and
potential counts are (casts of) non-negative integers, and the agreement
count never exceeds the potential count when the latter is positive. -/
theorem counts_are_nonneg_integers (data : List (List α)) (cat : α) :
    (∃ a : ℕ, agreementTotal data cat = (a : ℚ)) ∧
      (∃ p : ℕ, potentialTotal data cat = (p : ℚ)) ∧
      (0 < potentialTotal data cat →
        agreementTotal data cat ≤ potentialTotal data cat) :=
  ⟨⟨natAgreementTotal data cat, agreementTotal_eq_nat data cat⟩,
    ⟨natPotentialTotal data cat, potentialTotal_eq_nat data cat⟩,
    fun _ => agreementTotal_le_potentialTotal data cat⟩

/-- Witness for C6 at the dataset `[[0, 0]]`, category `0`, where the
potential is positive. -/
theorem counts_are_nonneg_integers_witness :
    (∃ a : ℕ, agreementTotal ([[0, 0]] : List (List ℕ)) 0 = (a : ℚ)) ∧
      (∃ p : ℕ, potentialTotal ([[0, 0]] : List (List ℕ)) 0 = (p : ℚ)) ∧
      agreementTotal ([[0, 0]] : List (List ℕ)) 0 ≤ potentialTotal [[0, 0]] 0 :=
  ⟨(counts_are_nonneg_integers [[0, 0]] 0).1,
    (counts_are_nonneg_integers [[0, 0]] 0).2.1,
    (counts_are_nonneg_integers [[0, 0]] 0).2.2
      (by rw [pot_pair]; norm_num)⟩

/-- C7: whenever the function returns a result mapping, its key set is
exactly the set of labels observed in at least one row. -/
theorem result_keys_are_observed (data : List (List α)) (keys : Finset α)
    (f : α → ℚ) (h : agreement_rate_by_category data = some (keys, f)) :
    ∀ cat, cat ∈ keys ↔ ∃ row ∈ data, cat ∈ row := by
  rw [result_eq] at h
  by_cases hc : ∀ cat ∈ observed data, potentialTotal data cat ≠ 0
  · rw [if_pos hc] at h
    injection h with h1
    have hk : keys = observed data := (congrArg Prod.fst h1).symm
    subst hk
    exact fun cat => mem_observed data cat
  · rw [if_neg hc] at h
    exact absurd h (by simp)

/-- Witness for C7 at the concrete dataset `[[0, 0]]`, category `0`. -/
theorem result_keys_are_observed_witness :
    (0 : ℕ) ∈ observed ([[0, 0]] : List (List ℕ)) ↔
      ∃ row ∈ ([[0, 0]] : List (List ℕ)), (0 : ℕ) ∈ row :=
  result_keys_are_observed [[0, 0]] (observed [[0, 0]])
    (fun cat => agreementTotal [[0, 0]] cat / potentialTotal [[0, 0]] cat)
    eval_pair 0

end Claims

section PermLemmas

variable {α : Type} [DecidableEq α]

lemma agreementTotal_as_multiset (d : List (List α)) (cat : α) :
    agreementTotal d cat =
      ((d.map Multiset.ofList).map
        (fun m => choose2 (m.count cat))).sum := by
  have hcomp : (fun m : Multiset α => choose2 (m.count cat)) ∘
      Multiset.ofList =
        fun row : List α => choose2 (row.count cat) := by
    funext row
    simp [Multiset.coe_count]
  rw [agreementTotal, List.map_map, hcomp]

lemma potentialTotal_as_multiset (d : List (List α)) (cat : α) :
    potentialTotal d cat =
      ((d.map Multiset.ofList).map
        (fun m => (m.count cat : ℚ) * (Multiset.card m : ℚ) -
          choose2 (m.count cat + 1))).sum := by
  have hcomp : (fun m : Multiset α => (m.count cat : ℚ) * (Multiset.card m : ℚ) -
      choose2 (m.count cat + 1)) ∘ Multiset.ofList =
        fun row : List α => (row.count cat : ℚ) * (row.length : ℚ) -
          choose2 (row.count cat + 1) := by
    funext row
    simp [Multiset.coe_count, Multiset.coe_card]
  rw [potentialTotal, List.map_map, hcomp]

end PermLemmas

lemma exists_row_of_perm {α : Type} {d₁ d₂ : List (List α)}
    (h : (d₁.map Multiset.ofList).Perm
      (d₂.map Multiset.ofList))
    {x : α} (hx : ∃ row ∈ d₁, x ∈ row) : ∃ row ∈ d₂, x ∈ row := by
  obtain ⟨row, hrow, hmem⟩ := hx
  have hm : Multiset.ofList row ∈ d₂.map Multiset.ofList :=
    h.mem_iff.mp (List.mem_map_of_mem _ hrow)
  obtain ⟨row₂, hrow₂, he⟩ := List.mem_map.mp hm
  refine ⟨row₂, hrow₂, ?_⟩
  have hx₂ : x ∈ Multiset.ofList row₂ := he ▸ Multiset.mem_coe.mpr hmem
  exact Multiset.mem_coe.mp hx₂

section MoreClaims

variable {α : Type} [DecidableEq α]

/-- C5: permuting the sequence of rows and permuting the labels within
any row (that is, producing a dataset whose list of row multisets is a
permutation of the original's) yields an identical result mapping. -/
theorem invariant_under_reordering (d₁ d₂ : List (List α))
    (h : (d₁.map Multiset.ofList).Perm
      (d₂.map Multiset.ofList)) :
    agreement_rate_by_category d₁ = agreement_rate_by_category d₂ := by
  have hA : ∀ cat, agreementTotal d₁ cat = agreementTotal d₂ cat := by
    intro cat
    rw [agreementTotal_as_multiset, agreementTotal_as_multiset]
    exact List.Perm.sum_eq (h.map _)
  have hP : ∀ cat, potentialTotal d₁ cat = potentialTotal d₂ cat := by
    intro cat
    rw [potentialTotal_as_multiset, potentialTotal_as_multiset]
    exact List.Perm.sum_eq (h.map _)
  have hobs : observed d₁ = observed d₂ := by
    ext x
    rw [mem_observed, mem_observed]
    exact ⟨fun hx => exists_row_of_perm h hx, fun hx => exists_row_of_perm h.symm hx⟩
  rw [result_eq, result_eq, hobs]
  simp only [hA, hP]

/-- Witness for C5: reordering the rows of `[[0,1],[2]]` and the labels
inside the first row. -/
theorem invariant_under_reordering_witness :
    agreement_rate_by_category ([[0, 1], [2]] : List (List ℕ)) =
      agreement_rate_by_category ([[2], [1, 0]] : List (List ℕ)) :=
  invariant_under_reordering [[0, 1], [2]] [[2], [1, 0]] (by
    have e : Multiset.ofList ([1, 0] : List ℕ) = Multiset.ofList [0, 1] :=
      Quot.sound (List.Perm.swap 0 1 [])
    simp only [List.map_cons, List.map_nil]
    rw [e]
    exact List.Perm.swap _ _ _)

lemma agreementTotal_replicate (N : ℕ) (r : List α) (cat : α) :
    agreementTotal (List.replicate N r) cat = N * choose2 (r.count cat) := by
  rw [agreementTotal, List.map_replicate, List.sum_replicate, nsmul_eq_mul]

lemma potentialTotal_replicate (N : ℕ) (r : List α) (cat : α) :
    potentialTotal (List.replicate N r) cat =
      N * ((r.count cat : ℚ) * (r.length : ℚ) - choose2 (r.count cat + 1)) := by
  rw [potentialTotal, List.map_replicate, List.sum_replicate, nsmul_eq_mul]

lemma observed_replicate {N : ℕ} (hN : 1 ≤ N) (r : List α) :
    observed (List.replicate N r) = r.toFinset := by
  ext x
  rw [mem_observed]
  constructor
  · rintro ⟨row, hrow, hx⟩
    rw [List.eq_of_mem_replicate hrow] at hx
    exact List.mem_toFinset.mpr hx
  · intro hx
    exact ⟨r, List.mem_replicate.mpr ⟨by omega, rfl⟩, List.mem_toFinset.mp hx⟩

/-- C8: on the dataset made of the row `[0,1,2]` repeated `N ≥ 1` times,
each of the three categories accumulates agreement 0 and potential `2*N`,
and the function returns the rate 0 for every category. -/
theorem total_disagreement (N : ℕ) (hN : 1 ≤ N) :
    (∀ cat ∈ ({0, 1, 2} : Finset ℕ),
      agreementTotal (List.replicate N [0, 1, 2]) cat = 0 ∧
        potentialTotal (List.replicate N [0, 1, 2]) cat = 2 * (N : ℚ)) ∧
      ∃ f, agreement_rate_by_category (List.replicate N [0, 1, 2]) =
          some ({0, 1, 2}, f) ∧ ∀ cat ∈ ({0, 1, 2} : Finset ℕ), f cat = 0 := by
  have hobs : observed (List.replicate N [0, 1, 2]) = {0, 1, 2} := by
    rw [observed_replicate hN]
    decide
  have hcount : ∀ cat ∈ ({0, 1, 2} : Finset ℕ),
      ([0, 1, 2] : List ℕ).count cat = 1 := by decide
  have hA : ∀ cat ∈ ({0, 1, 2} : Finset ℕ),
      agreementTotal (List.replicate N [0, 1, 2]) cat = 0 := by
    intro cat hc
    rw [agreementTotal_replicate, hcount cat hc, choose2_one, mul_zero]
  have hP : ∀ cat ∈ ({0, 1, 2} : Finset ℕ),
      potentialTotal (List.replicate N [0, 1, 2]) cat = 2 * (N : ℚ) := by
    intro cat hc
    rw [potentialTotal_replicate, hcount cat hc]
    have h2 : ((1 : ℕ) : ℚ) * ((([0, 1, 2] : List ℕ).length : ℚ)) -
        choose2 (1 + 1) = 2 := by
      rw [choose2]
      norm_num
    rw [h2]
    ring
  have hNpos : (0 : ℚ) < (N : ℚ) := by
    have : 0 < N := hN
    exact_mod_cast this
  refine ⟨fun cat hc => ⟨hA cat hc, hP cat hc⟩,
    ⟨fun cat => agreementTotal (List.replicate N [0, 1, 2]) cat /
        potentialTotal (List.replicate N [0, 1, 2]) cat, ?_, ?_⟩⟩
  · rw [result_eq]
    have hc : ∀ cat ∈ observed (List.replicate N [0, 1, 2]),
        potentialTotal (List.replicate N [0, 1, 2]) cat ≠ 0 := by
      intro cat hcat
      rw [hobs] at hcat
      rw [hP cat hcat]
      positivity
    rw [if_pos hc, hobs]
  · intro cat hc
    show agreementTotal (List.replicate N [0, 1, 2]) cat /
        potentialTotal (List.replicate N [0, 1, 2]) cat = 0
    rw [hA cat hc, zero_div]

/-- Witness for C8 at `N = 2`. -/
theorem total_disagreement_witness :
    (∀ cat ∈ ({0, 1, 2} : Finset ℕ),
      agreementTotal (List.replicate 2 [0, 1, 2]) cat = 0 ∧
        potentialTotal (List.replicate 2 [0, 1, 2]) cat = 2 * ((2 : ℕ) : ℚ)) ∧
      ∃ f, agreement_rate_by_category (List.replicate 2 [0, 1, 2]) =
          some ({0, 1, 2}, f) ∧ ∀ cat ∈ ({0, 1, 2} : Finset ℕ), f cat = 0 :=
  total_disagreement 2 (by norm_num)

end MoreClaims

section RateOne

variable {α : Type} [DecidableEq α]

lemma potential_sub_agreement (data : List (List α)) (cat : α) :
    potentialTotal data cat - agreementTotal data cat =
      (data.map (fun row =>
        (row.count cat : ℚ) * ((row.length : ℚ) - (row.count cat : ℚ)))).sum := by
  induction data with
  | nil => simp [potentialTotal, agreementTotal]
  | cons r t ih =>
      simp only [potentialTotal, agreementTotal, List.map_cons, List.sum_cons] at ih ⊢
      rw [rowPotential_split (r.count cat) r.length]
      linarith [ih]

lemma count_eq_length_iff_all (row : List α) (cat : α) :
    row.count cat = row.length ↔ ∀ x ∈ row, x = cat := by
  rw [List.count_eq_length]
  constructor
  · intro h x hx
    exact (h x hx).symm
  · intro h b hb
    exact (h b hb).symm

/-- C10: given a returned result mapping and a category with positive
accumulated potential, the rate at that category equals exactly 1 if and
only if every row in which the category occurs consists entirely of
occurrences of that category. -/
theorem rate_one_iff_unanimous_rows (data : List (List α)) (keys : Finset α)
    (f : α → ℚ) (h : agreement_rate_by_category data = some (keys, f))
    (cat : α) (hpot : 0 < potentialTotal data cat) :
    (f cat = 1 ↔ ∀ row ∈ data, cat ∈ row → ∀ x ∈ row, x = cat) := by
  rw [result_eq] at h
  by_cases hc : ∀ c ∈ observed data, potentialTotal data c ≠ 0
  · rw [if_pos hc] at h
    injection h with h1
    have hf : f = fun c => agreementTotal data c / potentialTotal data c :=
      (congrArg Prod.snd h1).symm
    subst hf
    show agreementTotal data cat / potentialTotal data cat = 1 ↔ _
    rw [div_eq_one_iff_eq (ne_of_gt hpot)]
    constructor
    · intro heq row hrow hmem x hx
      have hzero : (data.map (fun row =>
          (row.count cat : ℚ) * ((row.length : ℚ) - (row.count cat : ℚ)))).sum = 0 := by
        rw [← potential_sub_agreement]
        linarith
      have hnn : ∀ y ∈ data.map (fun row =>
          (row.count cat : ℚ) * ((row.length : ℚ) - (row.count cat : ℚ))), 0 ≤ y := by
        intro y hy
        obtain ⟨r, hr, rfl⟩ := List.mem_map.mp hy
        have hcl : r.count cat ≤ r.length := List.count_le_length cat r
        have hle : ((r.count cat : ℚ)) ≤ (r.length : ℚ) := by exact_mod_cast hcl
        have h0 : (0 : ℚ) ≤ (r.count cat : ℚ) := by positivity
        nlinarith
      have hterm : (row.count cat : ℚ) * ((row.length : ℚ) - (row.count cat : ℚ)) = 0 :=
        List.all_zero_of_le_zero_le_of_sum_eq_zero hnn hzero
          (List.mem_map_of_mem _ hrow)
      have hcpos : 0 < row.count cat := List.count_pos_iff.mpr hmem
      have hcastpos : (0 : ℚ) < (row.count cat : ℚ) := by exact_mod_cast hcpos
      have hlen : row.count cat = row.length := by
        rcases mul_eq_zero.mp hterm with hh | hh
        · exact absurd hh (ne_of_gt hcastpos)
        · have hq : (row.length : ℚ) = (row.count cat : ℚ) := by linarith
          exact_mod_cast hq.symm
      exact (count_eq_length_iff_all row cat).mp hlen x hx
    · intro hall
      have hz : ∀ y ∈ data.map (fun row =>
          (row.count cat : ℚ) * ((row.length : ℚ) - (row.count cat : ℚ))), y = 0 := by
        intro y hy
        obtain ⟨r, hr, rfl⟩ := List.mem_map.mp hy
        by_cases hmem : cat ∈ r
        · have hlen : r.count cat = r.length :=
            (count_eq_length_iff_all r cat).mpr (hall r hr hmem)
          rw [hlen, sub_self, mul_zero]
        · rw [List.count_eq_zero.mpr hmem]
          norm_num
      have hsub := potential_sub_agreement data cat
      rw [List.sum_eq_zero hz] at hsub
      linarith
  · rw [if_neg hc] at h
    exact absurd h (by simp)

/-- Witness for C10 at the dataset `[[0, 0]]`, category `0`: the rate is
1 and indeed every row containing `0` is all `0`. -/
theorem rate_one_iff_unanimous_rows_witness :
    (agreementTotal ([[0, 0]] : List (List ℕ)) 0 / potentialTotal [[0, 0]] 0 = 1 ↔
      ∀ row ∈ ([[0, 0]] : List (List ℕ)), 0 ∈ row → ∀ x ∈ row, x = 0) :=
  rate_one_iff_unanimous_rows [[0, 0]] (observed [[0, 0]])
    (fun cat => agreementTotal [[0, 0]] cat / potentialTotal [[0, 0]] cat)
    eval_pair 0 (by rw [pot_pair]; norm_num)

end RateOne
